import Mathlib

set_option maxHeartbeats 1000000

/-
Verification of the two-pass Hack assembler (my_hack_assembler.py).

Source strings are modelled as `List Char`.  Python's `dict` becomes an
association list whose entries are only ever inserted when the key is
absent (which is how every call site of the source behaves), so lookups
are unambiguous.  Fallible code returns `Except AsmErr`; the uncaught
Python `ValueError` that the tuple unpacking in `process_c_instruction`
can raise is modelled by the dedicated error `AsmErr.valueErrorUnpack`.
-/

namespace HackAsm

/-- Association-list lookup, modelling a Python dict lookup.  All dicts in
the source keep their keys unique, so the first match is the only match. -/
def lookupBy {κ α : Type} [DecidableEq κ] : List (κ × α) → κ → Option α
  | [], _ => none
  | (k, v) :: rest, key => if k = key then some v else lookupBy rest key

/-- The module-level `_COMP` table of the source (18 entries). -/
def COMP : List (List Char × List Char) :=
  [ (['0'], ['1','0','1','0','1','0']),
    (['1'], ['1','1','1','1','1','1']),
    (['-','1'], ['1','1','1','0','1','0']),
    (['D'], ['0','0','1','1','0','0']),
    (['A'], ['1','1','0','0','0','0']),
    (['!','D'], ['0','0','1','1','0','1']),
    (['!','A'], ['1','1','0','0','0','1']),
    (['-','D'], ['0','0','1','1','1','1']),
    (['-','A'], ['1','1','0','0','1','1']),
    (['D','+','1'], ['0','1','1','1','1','1']),
    (['A','+','1'], ['1','1','0','1','1','1']),
    (['D','-','1'], ['0','0','1','1','1','0']),
    (['A','-','1'], ['1','1','0','0','1','0']),
    (['D','+','A'], ['0','0','0','0','1','0']),
    (['D','-','A'], ['0','1','0','0','1','1']),
    (['A','-','D'], ['0','0','0','1','1','1']),
    (['D','&','A'], ['0','0','0','0','0','0']),
    (['D','|','A'], ['0','1','0','1','0','1']) ]

/-- The module-level `_DEST` table; the Python dict key `None` is the
`Option.none` key here. -/
def DEST : List (Option (List Char) × List Char) :=
  [ (none, ['0','0','0']),
    (some ['M'], ['0','0','1']),
    (some ['D'], ['0','1','0']),
    (some ['M','D'], ['0','1','1']),
    (some ['A'], ['1','0','0']),
    (some ['A','M'], ['1','0','1']),
    (some ['A','D'], ['1','1','0']),
    (some ['A','M','D'], ['1','1','1']) ]

/-- The module-level `_JUMP` table; the Python dict key `None` is the
`Option.none` key here. -/
def JUMP : List (Option (List Char) × List Char) :=
  [ (none, ['0','0','0']),
    (some ['J','G','T'], ['0','0','1']),
    (some ['J','E','Q'], ['0','1','0']),
    (some ['J','G','E'], ['0','1','1']),
    (some ['J','L','T'], ['1','0','0']),
    (some ['J','N','E'], ['1','0','1']),
    (some ['J','L','E'], ['1','1','0']),
    (some ['J','M','P'], ['1','1','1']) ]

/-- The failure modes of the assembler.  The first six are the
`HackAssemblyError` messages the source raises (each carrying the data that
appears in the message text); `valueErrorUnpack` is the uncaught Python
`ValueError` raised by `comp_inst, jump_inst = rest.split(";", 1)` when the
split yields a single element. -/
inductive AsmErr : Type
  | straySlash (ln : Nat)
  | duplicateLabel (label : List Char) (ln : Nat)
  | missingClose (ln : Nat)
  | missingOperand (ln : Nat)
  | addressRange (addr : Int) (ln : Nat)
  | illegalC (instruction : List Char) (ln : Nat)
  | valueErrorUnpack
  deriving DecidableEq, Repr

/-- The mutable fields of a `HackAssembler` object: `_symbol_table`,
`_effective_line_number` and `_symbol_count`. -/
structure AsmState : Type where
  symbolTable : List (List Char × Nat)
  effLine : Nat
  symCount : Nat
  deriving DecidableEq, Repr

/-- `HackAssembler.init_symbol_table`: R0..R15, then SCREEN, KBD, SP, LCL,
ARG, THIS, THAT, in the source's insertion order. -/
def init_symbol_table : List (List Char × Nat) :=
  ((List.range 16).map (fun i => ('R' :: Nat.toDigits 10 i, i))) ++
  [ (['S','C','R','E','E','N'], 16384),
    (['K','B','D'], 24576),
    (['S','P'], 0),
    (['L','C','L'], 1),
    (['A','R','G'], 2),
    (['T','H','I','S'], 3),
    (['T','H','A','T'], 4) ]

/-- The state of a freshly constructed `HackAssembler`. -/
def initAsmState : AsmState :=
  { symbolTable := init_symbol_table, effLine := 0, symCount := 0 }

/-- The whitespace characters of Python's `str.split()` (ASCII range). -/
def pyIsSpace (c : Char) : Bool :=
  c == ' ' || c == '\t' || c == '\n' || c == '\r' || c == '\x0b' || c == '\x0c'

/-- `"".join(line.split())`: every whitespace character is removed. -/
def stripWS (line : List Char) : List Char :=
  line.filter (fun c => !(pyIsSpace c))

/-- The scan loop of `strip_down`: at the first `/`, return the preceding
prefix when it starts a `//` comment, and fail otherwise. -/
def scanSlash (ln : Nat) : List Char → Except AsmErr (List Char)
  | [] => .ok []
  | c :: rest =>
    if c = '/' then
      match rest with
      | d :: _ => if d = '/' then .ok [] else .error (.straySlash ln)
      | [] => .error (.straySlash ln)
    else (scanSlash ln rest).map (fun tail => c :: tail)

/-- `HackAssembler.strip_down`. -/
def strip_down (line : List Char) (ln : Nat) : Except AsmErr (List Char) :=
  scanSlash ln (stripWS line)

/-- `HackAssembler.first_pass` (the returned state is the mutated `self`). -/
def first_pass (st : AsmState) (instruction : List Char) (ln : Nat) :
    Except AsmErr (List Char) × AsmState :=
  match instruction with
  | [] => (.ok [], st)
  | c :: _ =>
    if c = '(' then
      if instruction.getLast? = some ')' then
        let label := (instruction.drop 1).dropLast
        match lookupBy st.symbolTable label with
        | none =>
          (.ok [], { st with symbolTable := st.symbolTable ++ [(label, st.effLine)] })
        | some _ => (.error (.duplicateLabel label ln), st)
      else (.error (.missingClose ln), st)
    else (.ok instruction, { st with effLine := st.effLine + 1 })

/-- The digit run of a Python integer literal: digits with single
underscores allowed strictly between digits, accumulating the value. -/
def pdAux : Nat → List Char → Option Nat
  | acc, [] => some acc
  | acc, c :: rest =>
    if c = '_' then
      match rest with
      | d :: rest2 =>
        if d.isDigit then pdAux (10 * acc + (d.toNat - 48)) rest2 else none
      | [] => none
    else if c.isDigit then pdAux (10 * acc + (c.toNat - 48)) rest
    else none

/-- A nonempty digit run (underscores between digits allowed), as accepted
after the optional sign by Python's `int`. -/
def parseDigitsU : List Char → Option Nat
  | [] => none
  | c :: rest => if c.isDigit then pdAux (c.toNat - 48) rest else none

/-- Python's `int(s)` on a whitespace-free string: an optional single sign
followed by an underscore-separated digit run; `none` models `ValueError`. -/
def pyParseInt : List Char → Option Int
  | [] => none
  | c :: rest =>
    if c = '-' then (parseDigitsU rest).map (fun n => -(n : Int))
    else if c = '+' then (parseDigitsU rest).map (fun n => (n : Int))
    else (parseDigitsU (c :: rest)).map (fun n => (n : Int))

/-- `format(n, "0wb")` for `n < 2 ^ w`: the `w`-bit zero-padded binary
representation (the call site range-checks `n < 2 ^ 15` first). -/
def natToBin : Nat → Nat → List Char
  | 0, _ => []
  | w + 1, n => natToBin w (n / 2) ++ [if n % 2 = 1 then '1' else '0']

/-- `HackAssembler.process_a_instruction`.  The symbol branch inserts a new
variable before the range check, exactly as the source mutates
`self._symbol_table` before `if not 0 <= address_decimal < (2**15)`. -/
def process_a_instruction (st : AsmState) (instruction : List Char) (ln : Nat) :
    Except AsmErr (List Char) × AsmState :=
  let address_part := instruction.drop 1
  if address_part = [] then (.error (.missingOperand ln), st)
  else
    let r : Int × AsmState :=
      match pyParseInt address_part with
      | some n => (n, st)
      | none =>
        match lookupBy st.symbolTable address_part with
        | some a => ((a : Int), st)
        | none =>
          (((16 + st.symCount : Nat) : Int),
           { st with
              symbolTable := st.symbolTable ++ [(address_part, 16 + st.symCount)],
              symCount := st.symCount + 1 })
    if 0 ≤ r.1 ∧ r.1 < 32768 then
      (.ok ('0' :: natToBin 15 r.1.toNat), r.2)
    else (.error (.addressRange r.1 ln), r.2)

/-- Split a list at the first occurrence of `sep` (which the callers have
checked to be present), dropping the separator: `s.split(sep, 1)`. -/
def splitFirst (sep : Char) : List Char → List Char × List Char
  | [] => ([], [])
  | c :: rest =>
    if c = sep then ([], rest)
    else
      let p := splitFirst sep rest
      (c :: p.1, p.2)

/-- `comp_inst.replace("M", "A")`. -/
def replaceMA (comp_inst : List Char) : List Char :=
  comp_inst.map (fun ch => if ch = 'M' then 'A' else ch)

/-- The splitting prologue of `process_c_instruction`.  Note that the
source tests `";" in instruction` (not `";" in rest`); when the `;` sits
before the first `=`, `rest.split(";", 1)` yields one element and the
tuple unpacking raises an uncaught `ValueError`. -/
def splitCParts (instruction : List Char) :
    Except AsmErr (Option (List Char) × List Char × Option (List Char)) :=
  let dr : Option (List Char) × List Char :=
    if '=' ∈ instruction then
      let p := splitFirst '=' instruction
      (some p.1, p.2)
    else (none, instruction)
  if ';' ∈ instruction then
    if ';' ∈ dr.2 then
      let q := splitFirst ';' dr.2
      .ok (dr.1, q.1, some q.2)
    else .error .valueErrorUnpack
  else .ok (dr.1, dr.2, none)

/-- The `try` block of `process_c_instruction`: the indirect bit, the
`M`→`A` substitution and the three table lookups; a `KeyError` in any
lookup becomes the illegal-instruction error. -/
def encodeC (dest_inst : Option (List Char)) (comp_inst : List Char)
    (jump_inst : Option (List Char)) (instruction : List Char) (ln : Nat) :
    Except AsmErr (List Char) :=
  let aBit := if 'M' ∈ comp_inst then '1' else '0'
  match lookupBy COMP (replaceMA comp_inst), lookupBy DEST dest_inst,
        lookupBy JUMP jump_inst with
  | some compBits, some destBits, some jumpBits =>
    .ok ('1' :: '1' :: '1' :: aBit :: (compBits ++ destBits ++ jumpBits))
  | _, _, _ => .error (.illegalC instruction ln)

/-- `HackAssembler.process_c_instruction` (never mutates the state). -/
def process_c_instruction (st : AsmState) (instruction : List Char) (ln : Nat) :
    Except AsmErr (List Char) × AsmState :=
  match splitCParts instruction with
  | .error e => (.error e, st)
  | .ok (dest_inst, comp_inst, jump_inst) =>
    (encodeC dest_inst comp_inst jump_inst instruction ln, st)

/-- `HackAssembler.process_instruction`: dispatch on the first character;
`None` is returned for the empty instruction. -/
def process_instruction (st : AsmState) (instruction : List Char) (ln : Nat) :
    Except AsmErr (Option (List Char)) × AsmState :=
  match instruction with
  | [] => (.ok none, st)
  | c :: _ =>
    if c = '@' then
      let r := process_a_instruction st instruction ln
      (r.1.map some, r.2)
    else
      let r := process_c_instruction st instruction ln
      (r.1.map some, r.2)

/-- The first loop of `process_assembly`: per raw line, `strip_down` then
`first_pass`, appending every result (also the empty ones) to
`effective_instructions`.  `ln` is the 1-based number of the head line. -/
def runFirstPass (st : AsmState) (lines : List (List Char)) (ln : Nat) :
    Except AsmErr (List (List Char) × AsmState) :=
  match lines with
  | [] => .ok ([], st)
  | line :: rest =>
    match strip_down line ln with
    | .error e => .error e
    | .ok pureInst =>
      match first_pass st pureInst ln with
      | (.error e, _) => .error e
      | (.ok out, st1) =>
        match runFirstPass st1 rest (ln + 1) with
        | .error e => .error e
        | .ok (outs, st2) => .ok (out :: outs, st2)

/-- The second loop of `process_assembly`: walk `effective_instructions`
with its 1-based index as the reported line number, skipping empties and
collecting the encoded words. -/
def runSecondPass (st : AsmState) (insts : List (List Char)) (ln : Nat) :
    Except AsmErr (List (List Char) × AsmState) :=
  match insts with
  | [] => .ok ([], st)
  | inst :: rest =>
    if inst = [] then runSecondPass st rest (ln + 1)
    else
      match process_instruction st inst ln with
      | (.error e, _) => .error e
      | (.ok none, st1) => runSecondPass st1 rest (ln + 1)
      | (.ok (some w), st1) =>
        match runSecondPass st1 rest (ln + 1) with
        | .error e => .error e
        | .ok (ws, st2) => .ok (w :: ws, st2)

/-- `process_assembly` on the raw source lines. -/
def process_assembly (lines : List (List Char)) : Except AsmErr (List (List Char)) :=
  match runFirstPass initAsmState lines 1 with
  | .error e => .error e
  | .ok (effs, st1) =>
    match runSecondPass st1 effs 1 with
    | .error e => .error e
    | .ok (ws, _) => .ok ws

/-- What `first_pass` returns for a normalized line on success: labels and
blanks give the empty entry, anything else passes through. -/
def shapeFP : List Char → List Char
  | [] => []
  | c :: rest => if c = '(' then [] else c :: rest

/-- The value of a word of `0`/`1` characters read as binary. -/
def binValue (l : List Char) : Nat :=
  l.foldl (fun acc c => 2 * acc + (if c = '1' then 1 else 0)) 0

/-- The value of a digit word read as decimal. -/
def digitsVal (l : List Char) : Nat :=
  l.foldl (fun acc c => 10 * acc + (c.toNat - 48)) 0

/-- The keys of an association list. -/
def keys {κ α : Type} (t : List (κ × α)) : List κ := t.map (fun p => p.1)

/-- Effective instructions in a slice of the per-line output list: the
non-empty entries. -/
def countEff (l : List (List Char)) : Nat := l.countP (fun x => !(x.isEmpty))

/-- Specification-side description of which symbols the second pass
allocates as fresh variables, in order of first appearance: operands of
A-instructions that do not parse as integers and are neither already in
the table (`seen` starts as its keys) nor already collected. -/
def newVars (seen : List (List Char)) : List (List Char) → List (List Char)
  | [] => []
  | inst :: rest =>
    match inst with
    | c :: s =>
      if c = '@' ∧ s ≠ [] ∧ pyParseInt s = none ∧ s ∉ seen then
        s :: newVars (seen ++ [s]) rest
      else newVars seen rest
    | [] => newVars seen rest

/-- Pair each list element with a counter starting at `n`. -/
def enumFrom : Nat → List (List Char) → List (List Char × Nat)
  | _, [] => []
  | n, x :: xs => (x, n) :: enumFrom (n + 1) xs

/-- The line number reported by the three pass-2 error kinds (missing
operand, address out of range, illegal instruction). -/
def pass2ErrLine : AsmErr → Option Nat
  | .missingOperand ln => some ln
  | .addressRange _ ln => some ln
  | .illegalC _ ln => some ln
  | _ => none

/-- The predefined symbols as the specification lists them. -/
def predefinedSymbols : List (List Char × Nat) :=
  [ (['R','0'], 0), (['R','1'], 1), (['R','2'], 2), (['R','3'], 3),
    (['R','4'], 4), (['R','5'], 5), (['R','6'], 6), (['R','7'], 7),
    (['R','8'], 8), (['R','9'], 9), (['R','1','0'], 10), (['R','1','1'], 11),
    (['R','1','2'], 12), (['R','1','3'], 13), (['R','1','4'], 14),
    (['R','1','5'], 15),
    (['S','P'], 0), (['L','C','L'], 1), (['A','R','G'], 2),
    (['T','H','I','S'], 3), (['T','H','A','T'], 4),
    (['S','C','R','E','E','N'], 16384), (['K','B','D'], 24576) ]

theorem lookupBy_append_some {κ α : Type} [DecidableEq κ]
    (t1 t2 : List (κ × α)) (k : κ) (a : α) (h : lookupBy t1 k = some a) :
    lookupBy (t1 ++ t2) k = some a := by
  induction t1 with
  | nil => simp [lookupBy] at h
  | cons p rest ih =>
    obtain ⟨pk, pv⟩ := p
    simp only [lookupBy, List.cons_append] at h ⊢
    split at h
    · simp [*] at h ⊢
    · simp only [*, if_neg]
      exact ih h

theorem lookupBy_append_none {κ α : Type} [DecidableEq κ]
    (t1 t2 : List (κ × α)) (k : κ) (h : lookupBy t1 k = none) :
    lookupBy (t1 ++ t2) k = lookupBy t2 k := by
  induction t1 with
  | nil => simp [lookupBy]
  | cons p rest ih =>
    obtain ⟨pk, pv⟩ := p
    simp only [lookupBy, List.cons_append] at h ⊢
    split at h
    · exact absurd h (by simp)
    · simp only [*, if_neg]
      exact ih h

theorem lookupBy_none_iff {κ α : Type} [DecidableEq κ]
    (t : List (κ × α)) (k : κ) :
    lookupBy t k = none ↔ k ∉ keys t := by
  induction t with
  | nil => simp [lookupBy, keys]
  | cons p rest ih =>
    obtain ⟨pk, pv⟩ := p
    simp only [lookupBy, keys, List.map_cons, List.mem_cons]
    split
    · simp_all
    · simp only [ih, keys]
      constructor
      · intro hn hor
        rcases hor with h1 | h2
        · exact (by simp_all)
        · exact hn h2
      · intro hni
        exact fun hm => hni (Or.inr hm)

theorem first_pass_mono (st : AsmState) (instruction : List Char) (ln : Nat)
    (n : List Char) (a : Nat) (h : lookupBy st.symbolTable n = some a) :
    lookupBy (first_pass st instruction ln).2.symbolTable n = some a := by
  cases instruction with
  | nil => exact h
  | cons c rest =>
    simp only [first_pass]
    split
    · split
      · split
        · exact lookupBy_append_some _ _ _ _ h
        · exact h
      · exact h
    · exact h

theorem process_c_state (st : AsmState) (instruction : List Char) (ln : Nat) :
    (process_c_instruction st instruction ln).2 = st := by
  simp only [process_c_instruction]
  split <;> rfl

theorem process_a_mono (st : AsmState) (instruction : List Char) (ln : Nat)
    (n : List Char) (a : Nat) (h : lookupBy st.symbolTable n = some a) :
    lookupBy (process_a_instruction st instruction ln).2.symbolTable n = some a := by
  simp only [process_a_instruction]
  split
  · exact h
  · cases hp : pyParseInt (List.drop 1 instruction) with
    | some n => simp only [hp]; split <;> exact h
    | none =>
      simp only [hp]
      cases hl : lookupBy st.symbolTable (List.drop 1 instruction) with
      | some a2 => simp only [hl]; split <;> exact h
      | none => simp only [hl]; split <;> exact lookupBy_append_some _ _ _ _ h

theorem process_instruction_mono (st : AsmState) (instruction : List Char) (ln : Nat)
    (n : List Char) (a : Nat) (h : lookupBy st.symbolTable n = some a) :
    lookupBy (process_instruction st instruction ln).2.symbolTable n = some a := by
  cases instruction with
  | nil => exact h
  | cons c rest =>
    simp only [process_instruction]
    split
    · exact process_a_mono _ _ _ _ _ h
    · rw [process_c_state]
      exact h

theorem first_pass_ok (st : AsmState) (s : List Char) (ln : Nat) (out : List Char)
    (st1 : AsmState) (h : first_pass st s ln = (.ok out, st1)) :
    out = shapeFP s ∧ st1.symCount = st.symCount ∧
      st1.effLine = st.effLine + (if out.isEmpty then 0 else 1) := by
  cases s with
  | nil =>
    simp only [first_pass, Prod.mk.injEq, Except.ok.injEq] at h
    obtain ⟨h1, h2⟩ := h
    subst h1; subst h2
    simp [shapeFP]
  | cons c rest =>
    simp only [first_pass] at h
    by_cases hc : c = '('
    · subst hc
      rw [if_pos rfl] at h
      split at h
      · split at h
        · simp only [Prod.mk.injEq, Except.ok.injEq] at h
          obtain ⟨h1, h2⟩ := h
          subst h1; subst h2
          simp [shapeFP]
        · simp at h
      · simp at h
    · rw [if_neg hc] at h
      simp only [Prod.mk.injEq, Except.ok.injEq] at h
      obtain ⟨h1, h2⟩ := h
      subst h1; subst h2
      simp [shapeFP, hc]

theorem first_pass_ok_label (st : AsmState) (L : List Char) (ln : Nat) (out : List Char)
    (st1 : AsmState) (h : first_pass st ('(' :: (L ++ [')'])) ln = (.ok out, st1)) :
    st1.symbolTable = st.symbolTable ++ [(L, st.effLine)] ∧
      lookupBy st.symbolTable L = none ∧ out = [] ∧ st1.effLine = st.effLine := by
  have hlast : ('(' :: (L ++ [')'])).getLast? = some ')' := by
    rw [show ('(' :: (L ++ [')'])) = ('(' :: L) ++ [')'] from by simp]
    exact List.getLast?_concat _
  simp only [first_pass, hlast, List.drop_one, List.tail_cons, List.dropLast_concat,
    reduceIte] at h
  split at h
  · simp only [Prod.mk.injEq, Except.ok.injEq] at h
    obtain ⟨h1, h2⟩ := h
    subst h1; subst h2
    refine ⟨rfl, ?_, rfl, rfl⟩
    assumption
  · simp at h

theorem first_pass_err_line (st : AsmState) (s : List Char) (ln : Nat) (e : AsmErr)
    (st1 : AsmState) (h : first_pass st s ln = (.error e, st1)) :
    pass2ErrLine e = none := by
  cases s with
  | nil => simp [first_pass] at h
  | cons c rest =>
    simp only [first_pass] at h
    split at h
    · split at h
      · split at h
        · simp at h
        · simp only [Prod.mk.injEq, Except.error.injEq] at h
          rw [← h.1]
          rfl
      · simp only [Prod.mk.injEq, Except.error.injEq] at h
        rw [← h.1]
        rfl
    · simp at h

theorem except_map_error {ε α β : Type} (f : α → β) (x : Except ε α) (e : ε)
    (h : x.map f = .error e) : x = .error e := by
  cases x with
  | error e2 => simpa [Except.map] using h
  | ok v => simp [Except.map] at h

theorem scanSlash_err (ln : Nat) (l : List Char) (e : AsmErr)
    (h : scanSlash ln l = .error e) : e = .straySlash ln := by
  induction l with
  | nil => simp [scanSlash] at h
  | cons c rest ih =>
    simp only [scanSlash] at h
    split at h
    · split at h
      · split at h
        · simp at h
        · simp only [Except.error.injEq] at h
          exact h.symm
      · simp only [Except.error.injEq] at h
        exact h.symm
    · exact ih (except_map_error _ _ _ h)

theorem strip_down_err_line (line : List Char) (ln : Nat) (e : AsmErr)
    (h : strip_down line ln = .error e) : pass2ErrLine e = none := by
  rw [scanSlash_err ln _ e h]
  rfl

theorem runFirstPass_nil_ok (st : AsmState) (ln : Nat) (effs : List (List Char))
    (st' : AsmState) (h : runFirstPass st [] ln = .ok (effs, st')) :
    effs = [] ∧ st' = st := by
  simp only [runFirstPass, Except.ok.injEq, Prod.mk.injEq] at h
  exact ⟨h.1.symm, h.2.symm⟩

theorem runFirstPass_cons_ok (st : AsmState) (line : List Char)
    (rest : List (List Char)) (ln : Nat) (effs : List (List Char)) (st' : AsmState)
    (h : runFirstPass st (line :: rest) ln = .ok (effs, st')) :
    ∃ s out st1 outs, strip_down line ln = .ok s ∧
      first_pass st s ln = (.ok out, st1) ∧
      runFirstPass st1 rest (ln + 1) = .ok (outs, st') ∧ effs = out :: outs := by
  simp only [runFirstPass] at h
  split at h
  · exact Except.noConfusion h
  · rename_i s hs
    split at h
    · exact Except.noConfusion h
    · rename_i out st1 hf
      split at h
      · exact Except.noConfusion h
      · rename_i outs st2 hr
        simp only [Except.ok.injEq, Prod.mk.injEq] at h
        refine ⟨s, out, st1, outs, hs, hf, ?_, h.1.symm⟩
        rw [← h.2]
        exact hr

theorem runFirstPass_len (lines : List (List Char)) : ∀ (st : AsmState) (ln : Nat)
    (effs : List (List Char)) (st' : AsmState),
    runFirstPass st lines ln = .ok (effs, st') → effs.length = lines.length := by
  induction lines with
  | nil =>
    intro st ln effs st' h
    obtain ⟨h1, -⟩ := runFirstPass_nil_ok _ _ _ _ h
    simp [h1]
  | cons line rest ih =>
    intro st ln effs st' h
    obtain ⟨s, out, st1, outs, hs, hf, hr, heq⟩ := runFirstPass_cons_ok _ _ _ _ _ _ h
    subst heq
    simp [ih _ _ _ _ hr]

theorem runFirstPass_mono (lines : List (List Char)) : ∀ (st : AsmState) (ln : Nat)
    (effs : List (List Char)) (st' : AsmState),
    runFirstPass st lines ln = .ok (effs, st') →
    ∀ n a, lookupBy st.symbolTable n = some a → lookupBy st'.symbolTable n = some a := by
  induction lines with
  | nil =>
    intro st ln effs st' h n a ha
    obtain ⟨-, h2⟩ := runFirstPass_nil_ok _ _ _ _ h
    rw [h2]
    exact ha
  | cons line rest ih =>
    intro st ln effs st' h n a ha
    obtain ⟨s, out, st1, outs, hs, hf, hr, -⟩ := runFirstPass_cons_ok _ _ _ _ _ _ h
    have h1 := first_pass_mono st s ln n a ha
    rw [hf] at h1
    exact ih st1 (ln + 1) outs st' hr n a h1

theorem runFirstPass_shape (lines : List (List Char)) : ∀ (st : AsmState) (ln : Nat)
    (effs : List (List Char)) (st' : AsmState),
    runFirstPass st lines ln = .ok (effs, st') →
    ∀ i raw, lines.get? i = some raw →
    ∃ s, strip_down raw (ln + i) = .ok s ∧ effs.get? i = some (shapeFP s) := by
  induction lines with
  | nil => intro st ln effs st' h i raw hraw; simp at hraw
  | cons line rest ih =>
    intro st ln effs st' h i raw hraw
    obtain ⟨s, out, st1, outs, hs, hf, hr, heq⟩ := runFirstPass_cons_ok _ _ _ _ _ _ h
    subst heq
    cases i with
    | zero =>
      simp only [List.get?] at hraw
      injection hraw with hraw
      subst hraw
      refine ⟨s, by simpa using hs, ?_⟩
      simp [(first_pass_ok _ _ _ _ _ hf).1]
    | succ i2 =>
      simp only [List.get?] at hraw
      have harith : ln + (i2 + 1) = (ln + 1) + i2 := by omega
      rw [harith]
      obtain ⟨s2, hstrip2, hget2⟩ := ih st1 (ln + 1) outs st' hr i2 raw hraw
      exact ⟨s2, hstrip2, by simpa using hget2⟩

theorem runFirstPass_label (lines : List (List Char)) : ∀ (st : AsmState) (ln : Nat)
    (effs : List (List Char)) (st' : AsmState),
    runFirstPass st lines ln = .ok (effs, st') →
    ∀ i raw L, lines.get? i = some raw →
    strip_down raw (ln + i) = .ok ('(' :: (L ++ [')'])) →
    lookupBy st'.symbolTable L = some (st.effLine + countEff (List.take i effs)) := by
  induction lines with
  | nil => intro st ln effs st' h i raw L hraw hstrip; simp at hraw
  | cons line rest ih =>
    intro st ln effs st' h i raw L hraw hstrip
    obtain ⟨s, out, st1, outs, hs, hf, hr, heq⟩ := runFirstPass_cons_ok _ _ _ _ _ _ h
    subst heq
    cases i with
    | zero =>
      simp only [List.get?] at hraw
      injection hraw with hraw
      subst hraw
      rw [Nat.add_zero] at hstrip
      rw [hs] at hstrip
      injection hstrip with hstrip
      subst hstrip
      obtain ⟨htab, hnone, -, -⟩ := first_pass_ok_label _ _ _ _ _ hf
      have h1 : lookupBy st1.symbolTable L = some st.effLine := by
        rw [htab, lookupBy_append_none _ _ _ hnone]
        simp [lookupBy]
      have h2 := runFirstPass_mono rest st1 (ln + 1) outs st' hr L st.effLine h1
      rw [h2]
      simp [countEff]
    | succ i2 =>
      simp only [List.get?] at hraw
      have harith : ln + (i2 + 1) = (ln + 1) + i2 := by omega
      rw [harith] at hstrip
      rw [ih st1 (ln + 1) outs st' hr i2 raw L hraw hstrip]
      obtain ⟨-, -, heff⟩ := first_pass_ok _ _ _ _ _ hf
      simp only [List.take_succ_cons, countEff, List.countP_cons, Option.some.injEq]
      rw [heff]
      cases out with
      | nil => simp [countEff]
      | cons oc os => simp [countEff]; omega

theorem runFirstPass_err (lines : List (List Char)) : ∀ (st : AsmState) (ln : Nat)
    (e : AsmErr), runFirstPass st lines ln = .error e → pass2ErrLine e = none := by
  induction lines with
  | nil => intro st ln e h; simp [runFirstPass] at h
  | cons line rest ih =>
    intro st ln e h
    simp only [runFirstPass] at h
    split at h
    · rename_i e2 hs
      simp only [Except.error.injEq] at h
      subst h
      exact strip_down_err_line _ _ _ hs
    · rename_i s hs
      split at h
      · rename_i e2 st1 hf
        simp only [Except.error.injEq] at h
        subst h
        exact first_pass_err_line _ _ _ _ _ hf
      · rename_i out st1 hf
        split at h
        · rename_i e2 hr
          simp only [Except.error.injEq] at h
          subst h
          exact ih _ _ _ hr
        · exact Except.noConfusion h

theorem except_map_some_ok {ε α : Type} (x : Except ε α) (w : α)
    (h : x.map some = Except.ok (some w)) : x = .ok w := by
  cases x with
  | error e => simp [Except.map] at h
  | ok v =>
    simp only [Except.map, Except.ok.injEq, Option.some.injEq] at h
    rw [h]

theorem except_map_some_ne_none {ε α : Type} (x : Except ε α) :
    x.map some ≠ Except.ok (none : Option α) := by
  cases x <;> simp [Except.map]

theorem process_instruction_at (st : AsmState) (c : Char) (s : List Char) (ln : Nat)
    (hc : c = '@') :
    process_instruction st (c :: s) ln =
      ((process_a_instruction st (c :: s) ln).1.map some,
       (process_a_instruction st (c :: s) ln).2) := by
  subst hc
  simp [process_instruction]

theorem process_instruction_not_at (st : AsmState) (c : Char) (s : List Char) (ln : Nat)
    (hc : c ≠ '@') :
    process_instruction st (c :: s) ln =
      ((process_c_instruction st (c :: s) ln).1.map some,
       (process_c_instruction st (c :: s) ln).2) := by
  simp [process_instruction, hc]

theorem runSecondPass_nil_ok (st : AsmState) (ln : Nat) (outs : List (List Char))
    (st' : AsmState) (h : runSecondPass st [] ln = .ok (outs, st')) :
    outs = [] ∧ st' = st := by
  simp only [runSecondPass, Except.ok.injEq, Prod.mk.injEq] at h
  exact ⟨h.1.symm, h.2.symm⟩

theorem runSecondPass_cons_empty (st : AsmState) (rest : List (List Char)) (ln : Nat) :
    runSecondPass st ([] :: rest) ln = runSecondPass st rest (ln + 1) := by
  simp [runSecondPass]

theorem runSecondPass_cons_ok (st : AsmState) (inst : List Char)
    (rest : List (List Char)) (ln : Nat) (outs : List (List Char)) (st' : AsmState)
    (hne : inst ≠ []) (h : runSecondPass st (inst :: rest) ln = .ok (outs, st')) :
    ∃ w st1 ws, process_instruction st inst ln = (.ok (some w), st1) ∧
      runSecondPass st1 rest (ln + 1) = .ok (ws, st') ∧ outs = w :: ws := by
  simp only [runSecondPass, if_neg hne] at h
  split at h
  · exact Except.noConfusion h
  · rename_i st1 hpi
    exfalso
    cases inst with
    | nil => exact hne rfl
    | cons c s =>
      by_cases hc : c = '@'
      · rw [process_instruction_at st c s ln hc] at hpi
        have h1 := congrArg Prod.fst hpi
        exact except_map_some_ne_none _ h1
      · rw [process_instruction_not_at st c s ln hc] at hpi
        have h1 := congrArg Prod.fst hpi
        exact except_map_some_ne_none _ h1
  · rename_i w st1 hpi
    split at h
    · exact Except.noConfusion h
    · rename_i ws st2 hr
      simp only [Except.ok.injEq, Prod.mk.injEq] at h
      refine ⟨w, st1, ws, hpi, ?_, h.1.symm⟩
      rw [← h.2]
      exact hr

theorem process_a_empty (st : AsmState) (ln : Nat) :
    process_a_instruction st ['@'] ln = (.error (.missingOperand ln), st) := rfl

theorem process_a_literal_inv (st : AsmState) (s : List Char) (ln : Nat) (n : Int)
    (w : List Char) (st1 : AsmState) (hne : s ≠ []) (hp : pyParseInt s = some n)
    (h : process_a_instruction st ('@' :: s) ln = (.ok w, st1)) :
    w = '0' :: natToBin 15 n.toNat ∧ st1 = st ∧ 0 ≤ n ∧ n < 32768 := by
  simp only [process_a_instruction, List.drop_succ_cons, List.drop_zero,
    if_neg hne, hp] at h
  split at h
  · rename_i hrange
    simp only [Prod.mk.injEq, Except.ok.injEq] at h
    exact ⟨h.1.symm, h.2.symm, hrange.1, hrange.2⟩
  · simp at h

theorem process_a_found_inv (st : AsmState) (s : List Char) (ln : Nat) (a : Nat)
    (w : List Char) (st1 : AsmState) (hne : s ≠ []) (hp : pyParseInt s = none)
    (hl : lookupBy st.symbolTable s = some a)
    (h : process_a_instruction st ('@' :: s) ln = (.ok w, st1)) :
    w = '0' :: natToBin 15 a ∧ st1 = st ∧ a < 32768 := by
  simp only [process_a_instruction, List.drop_succ_cons, List.drop_zero,
    if_neg hne, hp, hl] at h
  split at h
  · rename_i hrange
    simp only [Prod.mk.injEq, Except.ok.injEq] at h
    refine ⟨?_, h.2.symm, ?_⟩
    · rw [← h.1]
      simp
    · exact_mod_cast hrange.2
  · simp at h

theorem process_a_fresh_inv (st : AsmState) (s : List Char) (ln : Nat)
    (w : List Char) (st1 : AsmState) (hne : s ≠ []) (hp : pyParseInt s = none)
    (hl : lookupBy st.symbolTable s = none)
    (h : process_a_instruction st ('@' :: s) ln = (.ok w, st1)) :
    w = '0' :: natToBin 15 (16 + st.symCount) ∧
      st1 = { st with symbolTable := st.symbolTable ++ [(s, 16 + st.symCount)],
                      symCount := st.symCount + 1 } ∧
      16 + st.symCount < 32768 := by
  simp only [process_a_instruction, List.drop_succ_cons, List.drop_zero,
    if_neg hne, hp, hl] at h
  split at h
  · rename_i hrange
    simp only [Prod.mk.injEq, Except.ok.injEq] at h
    refine ⟨?_, h.2.symm, ?_⟩
    · rw [← h.1]
      congr 2
    · exact_mod_cast hrange.2
  · simp at h

theorem runSecondPass_out (insts : List (List Char)) : ∀ (st : AsmState) (ln : Nat)
    (outs : List (List Char)) (st' : AsmState),
    runSecondPass st insts ln = .ok (outs, st') →
    ∀ j s a, insts.get? j = some ('@' :: s) → s ≠ [] → pyParseInt s = none →
    lookupBy st.symbolTable s = some a →
    outs.get? (countEff (List.take j insts)) = some ('0' :: natToBin 15 a) := by
  induction insts with
  | nil => intro st ln outs st' h j s a hj; simp at hj
  | cons inst rest ih =>
    intro st ln outs st' h j s a hj hne hp hl
    by_cases hinst : inst = []
    · subst hinst
      rw [runSecondPass_cons_empty] at h
      cases j with
      | zero => simp at hj
      | succ j2 =>
        simp only [List.get?] at hj
        have hres := ih st (ln + 1) outs st' h j2 s a hj hne hp hl
        simpa [countEff] using hres
    · obtain ⟨w, st1, ws, hpi, hr, heq⟩ := runSecondPass_cons_ok _ _ _ _ _ _ hinst h
      subst heq
      cases j with
      | zero =>
        simp only [List.get?] at hj
        injection hj with hj
        subst hj
        rw [process_instruction_at st '@' s ln rfl] at hpi
        have hx : (process_a_instruction st ('@' :: s) ln).1 = .ok w :=
          except_map_some_ok _ _ (congrArg Prod.fst hpi)
        have hy : (process_a_instruction st ('@' :: s) ln).2 = st1 :=
          congrArg Prod.snd hpi
        have hpa : process_a_instruction st ('@' :: s) ln = (.ok w, st1) :=
          Prod.ext hx hy
        obtain ⟨hw, -, -⟩ := process_a_found_inv _ _ _ _ _ _ hne hp hl hpa
        subst hw
        simp [countEff]
      | succ j2 =>
        simp only [List.get?] at hj
        have hl1 : lookupBy st1.symbolTable s = some a := by
          have hm := process_instruction_mono st inst ln s a hl
          rw [hpi] at hm
          exact hm
        have hres := ih st1 (ln + 1) ws st' hr j2 s a hj hne hp hl1
        have hpinst : (fun x : List Char => !x.isEmpty) inst = true := by
          cases inst with
          | nil => exact absurd rfl hinst
          | cons ic is2 => simp
        simp only [List.take_succ_cons, countEff, List.countP_cons, hpinst,
          if_pos, List.get?_cons_succ]
        simpa [countEff] using hres

theorem lookupBy_some_mem {κ α : Type} [DecidableEq κ] (t : List (κ × α)) (k : κ)
    (a : α) (h : lookupBy t k = some a) : k ∈ keys t := by
  by_contra hni
  rw [(lookupBy_none_iff t k).mpr hni] at h
  exact Option.noConfusion h

theorem runSecondPass_vars (insts : List (List Char)) : ∀ (st : AsmState) (ln : Nat)
    (outs : List (List Char)) (st' : AsmState),
    runSecondPass st insts ln = .ok (outs, st') →
    st'.symbolTable =
      st.symbolTable ++ enumFrom (16 + st.symCount) (newVars (keys st.symbolTable) insts) ∧
    st'.symCount = st.symCount + (newVars (keys st.symbolTable) insts).length := by
  induction insts with
  | nil =>
    intro st ln outs st' h
    obtain ⟨-, h2⟩ := runSecondPass_nil_ok _ _ _ _ h
    subst h2
    simp [newVars, enumFrom]
  | cons inst rest ih =>
    intro st ln outs st' h
    by_cases hinst : inst = []
    · subst hinst
      rw [runSecondPass_cons_empty] at h
      have hres := ih st (ln + 1) outs st' h
      simpa [newVars] using hres
    · obtain ⟨w, st1, ws, hpi, hr, -⟩ := runSecondPass_cons_ok _ _ _ _ _ _ hinst h
      cases inst with
      | nil => exact absurd rfl hinst
      | cons c s =>
        by_cases hc : c = '@'
        · subst hc
          rw [process_instruction_at st '@' s ln rfl] at hpi
          have hx : (process_a_instruction st ('@' :: s) ln).1 = .ok w :=
            except_map_some_ok _ _ (congrArg Prod.fst hpi)
          have hy : (process_a_instruction st ('@' :: s) ln).2 = st1 :=
            congrArg Prod.snd hpi
          have hpa : process_a_instruction st ('@' :: s) ln = (.ok w, st1) :=
            Prod.ext hx hy
          by_cases hsne : s = []
          · subst hsne
            rw [process_a_empty] at hpa
            simp only [Prod.mk.injEq] at hpa
            exact Except.noConfusion hpa.1
          · cases hp : pyParseInt s with
            | some n =>
              obtain ⟨-, hstate, -, -⟩ := process_a_literal_inv _ _ _ _ _ _ hsne hp hpa
              rw [hstate] at hr
              have hres := ih st (ln + 1) ws st' hr
              simpa [newVars, hp, hsne] using hres
            | none =>
              cases hl : lookupBy st.symbolTable s with
              | some a =>
                obtain ⟨-, hstate, -⟩ := process_a_found_inv _ _ _ _ _ _ hsne hp hl hpa
                rw [hstate] at hr
                have hres := ih st (ln + 1) ws st' hr
                have hmem : s ∈ keys st.symbolTable := lookupBy_some_mem _ _ _ hl
                simpa [newVars, hp, hsne, hmem] using hres
              | none =>
                obtain ⟨-, hstate, -⟩ := process_a_fresh_inv _ _ _ _ _ hsne hp hl hpa
                subst hstate
                obtain ⟨hih1, hih2⟩ := ih _ (ln + 1) ws st' hr
                have hnm : s ∉ keys st.symbolTable := (lookupBy_none_iff _ _).mp hl
                have hnv : newVars (keys st.symbolTable) (('@' :: s) :: rest) =
                    s :: newVars (keys st.symbolTable ++ [s]) rest := by
                  simp [newVars, hsne, hp, hnm]
                have hkeys : keys (st.symbolTable ++ [(s, 16 + st.symCount)]) =
                    keys st.symbolTable ++ [s] := by simp [keys]
                constructor
                · rw [hnv, hih1]
                  simp only [hkeys, enumFrom]
                  rw [List.append_assoc]
                  rfl
                · rw [hnv, hih2]
                  simp only [hkeys, List.length_cons]
                  omega
        · have hy : (process_c_instruction st (c :: s) ln).2 = st1 := by
            rw [process_instruction_not_at st c s ln hc] at hpi
            exact congrArg Prod.snd hpi
          rw [process_c_state] at hy
          subst hy
          have hres := ih st (ln + 1) ws st' hr
          simpa [newVars, hc] using hres

theorem runSecondPass_err (insts : List (List Char)) : ∀ (st : AsmState) (ln : Nat)
    (e : AsmErr), runSecondPass st insts ln = .error e →
    ∃ i inst st0, insts.get? i = some inst ∧ inst ≠ [] ∧
      (process_instruction st0 inst (ln + i)).1 = .error e := by
  induction insts with
  | nil => intro st ln e h; simp [runSecondPass] at h
  | cons inst rest ih =>
    intro st ln e h
    by_cases hinst : inst = []
    · subst hinst
      rw [runSecondPass_cons_empty] at h
      obtain ⟨i, inst2, st0, h1, h2, h3⟩ := ih st (ln + 1) e h
      refine ⟨i + 1, inst2, st0, by simpa using h1, h2, ?_⟩
      rw [show ln + (i + 1) = (ln + 1) + i from by omega]
      exact h3
    · simp only [runSecondPass, if_neg hinst] at h
      split at h
      · rename_i e2 st1 hpi
        simp only [Except.error.injEq] at h
        subst h
        refine ⟨0, inst, st, by simp, hinst, ?_⟩
        rw [Nat.add_zero, hpi]
      · rename_i st1 hpi
        obtain ⟨i, inst2, st0, h1, h2, h3⟩ := ih st1 (ln + 1) e h
        refine ⟨i + 1, inst2, st0, by simpa using h1, h2, ?_⟩
        rw [show ln + (i + 1) = (ln + 1) + i from by omega]
        exact h3
      · rename_i w st1 hpi
        split at h
        · rename_i e2 hr
          simp only [Except.error.injEq] at h
          subst h
          obtain ⟨i, inst2, st0, h1, h2, h3⟩ := ih st1 (ln + 1) _ hr
          refine ⟨i + 1, inst2, st0, by simpa using h1, h2, ?_⟩
          rw [show ln + (i + 1) = (ln + 1) + i from by omega]
          exact h3
        · exact Except.noConfusion h

theorem splitCParts_err (instruction : List Char) (e : AsmErr)
    (h : splitCParts instruction = .error e) : e = .valueErrorUnpack := by
  by_cases h1 : ';' ∈ instruction
  · by_cases h2 : '=' ∈ instruction
    · by_cases h3 : ';' ∈ (splitFirst '=' instruction).2
      · simp [splitCParts, h1, h2, h3] at h
      · simp only [splitCParts, h1, h2, h3, if_true, if_false, ite_true, ite_false,
          Except.error.injEq] at h
        exact h.symm
    · simp [splitCParts, h1, h2] at h
  · simp [splitCParts, h1] at h

theorem process_a_err_shape (st : AsmState) (instruction : List Char) (ln : Nat)
    (e : AsmErr) (h : (process_a_instruction st instruction ln).1 = .error e) :
    e = .missingOperand ln ∨ ∃ v, e = .addressRange v ln := by
  simp only [process_a_instruction] at h
  split at h
  · left
    injection h with h
    exact h.symm
  · split at h
    · exact absurd h (by simp)
    · right
      injection h with h
      exact ⟨_, h.symm⟩

theorem process_c_err_shape (st : AsmState) (instruction : List Char) (ln : Nat)
    (e : AsmErr) (h : (process_c_instruction st instruction ln).1 = .error e) :
    e = .valueErrorUnpack ∨ e = .illegalC instruction ln := by
  simp only [process_c_instruction] at h
  split at h
  · rename_i e2 hsp
    left
    have h2 : e2 = e := by injection h
    rw [← h2]
    exact splitCParts_err _ _ hsp
  · rename_i d ci j hsp
    right
    have h2 : encodeC d ci j instruction ln = .error e := h
    simp only [encodeC] at h2
    split at h2
    · exact Except.noConfusion h2
    · injection h2 with h2
      exact h2.symm

theorem process_instruction_err_line (st : AsmState) (inst : List Char) (ln : Nat)
    (e : AsmErr) (k : Nat) (h : (process_instruction st inst ln).1 = .error e)
    (hk : pass2ErrLine e = some k) : k = ln := by
  cases inst with
  | nil => exact absurd h (by simp [process_instruction])
  | cons c s =>
    by_cases hc : c = '@'
    · rw [process_instruction_at st c s ln hc] at h
      have h2 : (process_a_instruction st (c :: s) ln).1.map some = .error e := h
      have h3 := except_map_error _ _ _ h2
      rcases process_a_err_shape _ _ _ _ h3 with he | ⟨v, he⟩ <;>
        (subst he; simp only [pass2ErrLine, Option.some.injEq] at hk; omega)
    · rw [process_instruction_not_at st c s ln hc] at h
      have h2 : (process_c_instruction st (c :: s) ln).1.map some = .error e := h
      have h3 := except_map_error _ _ _ h2
      rcases process_c_err_shape _ _ _ _ h3 with he | he
      · subst he
        simp [pass2ErrLine] at hk
      · subst he
        simp only [pass2ErrLine, Option.some.injEq] at hk
        omega

theorem isDigit_ne_underscore (c : Char) (h : c.isDigit = true) : c ≠ '_' := by
  intro he
  rw [he] at h
  exact absurd h (by decide)

theorem isDigit_ne_minus (c : Char) (h : c.isDigit = true) : c ≠ '-' := by
  intro he
  rw [he] at h
  exact absurd h (by decide)

theorem isDigit_ne_plus (c : Char) (h : c.isDigit = true) : c ≠ '+' := by
  intro he
  rw [he] at h
  exact absurd h (by decide)

theorem pdAux_cons_nil (acc : Nat) (c : Char) :
    pdAux acc [c] =
      if c = '_' then none
      else if c.isDigit then pdAux (10 * acc + (c.toNat - 48)) [] else none := rfl

theorem pdAux_cons_cons (acc : Nat) (c d : Char) (rest2 : List Char) :
    pdAux acc (c :: d :: rest2) =
      if c = '_' then
        (if d.isDigit then pdAux (10 * acc + (d.toNat - 48)) rest2 else none)
      else if c.isDigit then pdAux (10 * acc + (c.toNat - 48)) (d :: rest2) else none := rfl

theorem pdAux_all_digits (l : List Char) : ∀ acc : Nat, (∀ c ∈ l, c.isDigit) →
    pdAux acc l = some (l.foldl (fun a c => 10 * a + (c.toNat - 48)) acc) := by
  induction l with
  | nil => intro acc h; rfl
  | cons c rest ih =>
    intro acc h
    have hc : c.isDigit := h c (List.mem_cons_self _ _)
    cases rest with
    | nil =>
      rw [pdAux_cons_nil, if_neg (isDigit_ne_underscore c hc), if_pos hc]
      rfl
    | cons d rest2 =>
      rw [pdAux_cons_cons, if_neg (isDigit_ne_underscore c hc), if_pos hc, List.foldl_cons]
      exact ih _ (fun x hx => h x (List.mem_cons_of_mem _ hx))

theorem pyParseInt_digits (ds : List Char) (h1 : ds ≠ [])
    (h2 : ∀ c ∈ ds, c.isDigit) :
    pyParseInt ds = some ((digitsVal ds : Nat) : Int) := by
  cases ds with
  | nil => exact absurd rfl h1
  | cons c rest =>
    have hc : c.isDigit := h2 c (List.mem_cons_self _ _)
    simp only [pyParseInt, if_neg (isDigit_ne_minus c hc), if_neg (isDigit_ne_plus c hc),
      parseDigitsU, if_pos hc]
    rw [pdAux_all_digits rest _ (fun d hd => h2 d (List.mem_cons_of_mem _ hd))]
    simp only [Option.map_some, Option.some.injEq, digitsVal, List.foldl_cons]
    norm_num

theorem natToBin_length (w : Nat) : ∀ n : Nat, (natToBin w n).length = w := by
  induction w with
  | zero => intro n; rfl
  | succ w ih =>
    intro n
    simp only [natToBin, List.length_append, ih, List.length_singleton]

theorem binValue_append_bit (l : List Char) (c : Char) :
    binValue (l ++ [c]) = 2 * binValue l + (if c = '1' then 1 else 0) := by
  simp only [binValue, List.foldl_append, List.foldl_cons, List.foldl_nil]

theorem binValue_natToBin (w : Nat) : ∀ n : Nat, binValue (natToBin w n) = n % 2 ^ w := by
  induction w with
  | zero => intro n; simp [natToBin, binValue, Nat.mod_one]
  | succ w ih =>
    intro n
    rw [natToBin, binValue_append_bit, ih]
    have h2 : 2 ^ (w + 1) = 2 * 2 ^ w := by ring
    rw [h2, Nat.mod_mul]
    rcases Nat.mod_two_eq_zero_or_one n with hm | hm
    · simp [hm]
    · simp [hm]
      omega

/-- C1: the claim states that a non-empty effective instruction not beginning
with `@` is split on the first `=` and the remainder then split on its first
`;`, so that a remainder without `;` gives an absent jump and a computation
part equal to the whole remainder, including when a `;` occurs before the
first `=`.  The code instead tests `";" in instruction` and crashes with an
uncaught Python `ValueError` (modelled by `valueErrorUnpack`) on exactly
those instructions: on `0;JMP=D` the split of the remainder `D` yields one
element and the tuple unpacking fails (code bug). -/
theorem c1_semicolon_before_eq_crash :
    splitCParts ['0', ';', 'J', 'M', 'P', '=', 'D'] = .error .valueErrorUnpack ∧
    process_c_instruction initAsmState ['0', ';', 'J', 'M', 'P', '=', 'D'] 1 =
      (.error .valueErrorUnpack, initAsmState) := ⟨rfl, rfl⟩

/-- C3: the claim states that `IllegalInstructionError` from the three table
lookups is the only way a non-A instruction can fail.  On `D;JGT=M` (a `;`
before the first `=`) the code instead fails with an uncaught Python
`ValueError` from tuple unpacking, which is not a `HackAssemblyError` at all
(code bug). -/
theorem c3_non_lookup_failure :
    process_c_instruction initAsmState ['D', ';', 'J', 'G', 'T', '=', 'M'] 7 =
      (.error .valueErrorUnpack, initAsmState) := rfl

/-- C10: a normalized line `()` is accepted by pass 1 as a label definition
of the empty-string symbol, mapped to the current effective-instruction
counter, while `@` with an empty remainder fails with the missing-operand
error, so the empty-named label can never be referenced. -/
theorem c10_empty_label_accepted (st : AsmState) (ln ln2 : Nat)
    (h : lookupBy st.symbolTable [] = none) :
    first_pass st ['(', ')'] ln =
      (.ok [], { st with symbolTable := st.symbolTable ++ [([], st.effLine)] }) ∧
    (∀ st2 : AsmState, process_a_instruction st2 ['@'] ln2 =
      (.error (.missingOperand ln2), st2)) := by
  constructor
  · simp [first_pass, h]
  · intro st2
    exact process_a_empty st2 ln2

/-- Witness for C10 at the freshly initialized assembler state. -/
theorem c10_empty_label_accepted_witness :
    (first_pass initAsmState ['(', ')'] 1 =
      (.ok [], { initAsmState with
        symbolTable := initAsmState.symbolTable ++ [([], initAsmState.effLine)] }) ∧
    (∀ st2 : AsmState, process_a_instruction st2 ['@'] 5 =
      (.error (.missingOperand 5), st2))) :=
  c10_empty_label_accepted initAsmState 1 5 (by decide)

/-- C6: the symbol table of a fresh assembler contains every predefined
entry (R0..R15 at 0..15, SP=0, LCL=1, ARG=2, THIS=3, THAT=4, SCREEN=16384,
KBD=24576), and both the pass-1 operation and the pass-2 operation preserve
every existing entry: a name already mapped to an address keeps exactly that
address, since label definition and variable allocation only append names
that are not present. -/
theorem c6_symbol_table_invariants :
    initAsmState.symbolTable = init_symbol_table ∧
    (∀ p ∈ predefinedSymbols, lookupBy init_symbol_table p.1 = some p.2) ∧
    (∀ (st : AsmState) (instruction : List Char) (ln : Nat) (n : List Char) (a : Nat),
      lookupBy st.symbolTable n = some a →
      lookupBy (first_pass st instruction ln).2.symbolTable n = some a) ∧
    (∀ (st : AsmState) (instruction : List Char) (ln : Nat) (n : List Char) (a : Nat),
      lookupBy st.symbolTable n = some a →
      lookupBy (process_instruction st instruction ln).2.symbolTable n = some a) :=
  ⟨rfl, by decide, first_pass_mono, process_instruction_mono⟩

/-- Witness for C6: the SP entry is predefined, and a KBD entry survives a
label definition. -/
theorem c6_symbol_table_invariants_witness :
    lookupBy init_symbol_table ['S', 'P'] = some 0 ∧
    lookupBy (first_pass initAsmState ['(', 'L', ')'] 1).2.symbolTable
      ['K', 'B', 'D'] = some 24576 :=
  ⟨c6_symbol_table_invariants.2.1 (['S', 'P'], 0) (by decide),
   c6_symbol_table_invariants.2.2.2 initAsmState ['(', 'L', ')'] 1 ['K', 'B', 'D'] 24576
     (by decide)⟩

/-- C8: whenever a C-instruction is successfully encoded, the emitted word
is `111`, then the indirect-addressing bit, which is `1` exactly when the
computation part contains `M` and `0` otherwise, then the comp bits of the
table entry for the computation part with every `M` substituted by `A`,
then the dest and jump bits. -/
theorem c8_indirect_bit (st : AsmState) (instruction : List Char) (ln : Nat)
    (w : List Char) (h : (process_c_instruction st instruction ln).1 = .ok w) :
    ∃ d c j cb db jb,
      splitCParts instruction = .ok (d, c, j) ∧
      lookupBy COMP (replaceMA c) = some cb ∧
      lookupBy DEST d = some db ∧
      lookupBy JUMP j = some jb ∧
      w = '1' :: '1' :: '1' :: (if 'M' ∈ c then '1' else '0') :: (cb ++ db ++ jb) := by
  simp only [process_c_instruction] at h
  split at h
  · exact absurd h (by simp)
  · rename_i d c j hsp
    have h2 : encodeC d c j instruction ln = .ok w := h
    simp only [encodeC] at h2
    split at h2
    · rename_i cb db jb hcb hdb hjb
      injection h2 with h2
      exact ⟨d, c, j, cb, db, jb, hsp, hcb, hdb, hjb, h2.symm⟩
    · exact Except.noConfusion h2

/-- Witness for C8 at `MD=M+1;JGT`: the comp part `M+1` contains `M`, the
indirect bit is `1` and the comp bits are those of `A+1`. -/
theorem c8_indirect_bit_witness :
    ∃ d c j cb db jb,
      splitCParts ['M', 'D', '=', 'M', '+', '1', ';', 'J', 'G', 'T'] = .ok (d, c, j) ∧
      lookupBy COMP (replaceMA c) = some cb ∧
      lookupBy DEST d = some db ∧
      lookupBy JUMP j = some jb ∧
      ['1','1','1','1','1','1','0','1','1','1','0','1','1','0','0','1'] =
        '1' :: '1' :: '1' :: (if 'M' ∈ c then '1' else '0') :: (cb ++ db ++ jb) :=
  c8_indirect_bit initAsmState ['M', 'D', '=', 'M', '+', '1', ';', 'J', 'G', 'T'] 1
    ['1','1','1','1','1','1','0','1','1','1','0','1','1','0','0','1'] rfl

/-- C2 counterexample: the claim says a remainder that is not a non-negative
decimal integer literal, for example one beginning with `-`, is treated as a
symbol and resolved through the Symbol Table.  On `@-1` the code parses
`-1` with Python `int`, takes the literal branch, and fails the range check
with the address-range error, leaving the table untouched, even though
`-1` is absent from the table. -/
theorem c2_negative_literal_cex :
    process_a_instruction initAsmState ['@', '-', '1'] 3 =
      (.error (.addressRange (-1) 3), initAsmState) ∧
    lookupBy initAsmState.symbolTable ['-', '1'] = none := ⟨rfl, rfl⟩

/-- C2 (amended): the literal branch is taken exactly when the remainder
parses under Python `int` (optional sign, digits, underscores between
digits): a parsed value leaves the state unchanged and is range-checked,
encoding in range and failing with the address-range error out of range
(in particular for every negative value); only a remainder that does not
parse is treated as a symbol, read from the table when present and
allocated as `16 + symbol count` when absent. -/
theorem c2_int_parse_dichotomy (st : AsmState) (rest : List Char) (ln : Nat)
    (hne : rest ≠ []) :
    (∀ n : Int, pyParseInt rest = some n →
      (process_a_instruction st ('@' :: rest) ln).2 = st ∧
      (0 ≤ n ∧ n < 32768 →
        (process_a_instruction st ('@' :: rest) ln).1 =
          .ok ('0' :: natToBin 15 n.toNat)) ∧
      (¬(0 ≤ n ∧ n < 32768) →
        (process_a_instruction st ('@' :: rest) ln).1 = .error (.addressRange n ln))) ∧
    (pyParseInt rest = none → ∀ a : Nat, lookupBy st.symbolTable rest = some a →
      (process_a_instruction st ('@' :: rest) ln).2 = st) ∧
    (pyParseInt rest = none → lookupBy st.symbolTable rest = none →
      (process_a_instruction st ('@' :: rest) ln).2.symbolTable =
        st.symbolTable ++ [(rest, 16 + st.symCount)] ∧
      (process_a_instruction st ('@' :: rest) ln).2.symCount = st.symCount + 1) := by
  refine ⟨?_, ?_, ?_⟩
  · intro n hp
    refine ⟨?_, ?_, ?_⟩
    · simp only [process_a_instruction, List.drop_succ_cons, List.drop_zero,
        if_neg hne, hp]
      split <;> rfl
    · intro hrange
      simp only [process_a_instruction, List.drop_succ_cons, List.drop_zero,
        if_neg hne, hp]
      split
      · rfl
      · rename_i hcontra
        exact absurd hrange hcontra
    · intro hrange
      simp only [process_a_instruction, List.drop_succ_cons, List.drop_zero,
        if_neg hne, hp]
      split
      · rename_i hcond
        exact absurd hcond hrange
      · rfl
  · intro hp a hl
    simp only [process_a_instruction, List.drop_succ_cons, List.drop_zero,
      if_neg hne, hp, hl]
    split <;> rfl
  · intro hp hl
    simp only [process_a_instruction, List.drop_succ_cons, List.drop_zero,
      if_neg hne, hp, hl]
    constructor
    · split <;> rfl
    · split <;> rfl

/-- Witness for C2 at the remainder `-1`, which parses to the negative
value `-1`, fails the range check and leaves the state unchanged. -/
theorem c2_int_parse_dichotomy_witness :
    (process_a_instruction initAsmState ['@', '-', '1'] 3).2 = initAsmState ∧
    (process_a_instruction initAsmState ['@', '-', '1'] 3).1 =
      .error (.addressRange (-1) 3) := by
  have h := (c2_int_parse_dichotomy initAsmState ['-', '1'] 3 (by decide)).1 (-1) rfl
  exact ⟨h.1, h.2.2 (by decide)⟩

/-- C7: for every decimal digit string `ds` whose value n is below 32768,
encoding the A-instruction `@ds` succeeds without touching the state and
yields `0` followed by a 15-character word of `0`/`1` characters whose
binary value is n, i.e. the 15-bit zero-padded binary representation of n. -/
theorem c7_a_literal_encoding (st : AsmState) (ds : List Char) (ln : Nat)
    (hne : ds ≠ []) (hdig : ∀ c ∈ ds, c.isDigit) (hlt : digitsVal ds < 32768) :
    process_a_instruction st ('@' :: ds) ln =
      (.ok ('0' :: natToBin 15 (digitsVal ds)), st) ∧
    (natToBin 15 (digitsVal ds)).length = 15 ∧
    binValue (natToBin 15 (digitsVal ds)) = digitsVal ds := by
  have hp := pyParseInt_digits ds hne hdig
  refine ⟨?_, natToBin_length 15 _, ?_⟩
  · have hcond : (0 : Int) ≤ ((digitsVal ds : Nat) : Int) ∧
        ((digitsVal ds : Nat) : Int) < 32768 :=
      ⟨Int.natCast_nonneg _, by exact_mod_cast hlt⟩
    simp only [process_a_instruction, List.drop_succ_cons, List.drop_zero,
      if_neg hne, hp]
    split
    · rfl
    · rename_i hcontra
      exact absurd hcond hcontra
  · rw [binValue_natToBin]
    have h15 : (2 : Nat) ^ 15 = 32768 := by norm_num
    rw [h15]
    exact Nat.mod_eq_of_lt hlt

/-- Witness for C7 at the literal `@21`. -/
theorem c7_a_literal_encoding_witness :
    process_a_instruction initAsmState ['@', '2', '1'] 1 =
      (.ok ('0' :: natToBin 15 (digitsVal ['2', '1'])), initAsmState) ∧
    (natToBin 15 (digitsVal ['2', '1'])).length = 15 ∧
    binValue (natToBin 15 (digitsVal ['2', '1'])) = digitsVal ['2', '1'] :=
  c7_a_literal_encoding initAsmState ['2', '1'] 1 (by decide) (by decide) (by decide)

/-- C5: over any run of the second pass started with a zero variable
counter, the symbols allocated as fresh variables are exactly the operands
of A-instructions that do not parse as integers and are absent from the
table at their first reference, in order of first appearance; they are
appended to the table with addresses 16, 17, 18, ... and the counter ends
at their number, one allocation per newly seen variable no matter how often
it is referenced again. -/
theorem c5_variable_allocation (st : AsmState) (insts : List (List Char)) (ln : Nat)
    (outs : List (List Char)) (st2 : AsmState) (h0 : st.symCount = 0)
    (h : runSecondPass st insts ln = .ok (outs, st2)) :
    st2.symbolTable =
      st.symbolTable ++ enumFrom 16 (newVars (keys st.symbolTable) insts) ∧
    st2.symCount = (newVars (keys st.symbolTable) insts).length := by
  have hres := runSecondPass_vars insts st ln outs st2 h
  rw [h0] at hres
  simpa using hres

/-- Witness for C5 on the instruction list `@i`, `@j`, `@i`: the two fresh
variables i and j get 16 and 17 and the counter ends at 2. -/
theorem c5_variable_allocation_witness :
    ({ symbolTable := init_symbol_table ++ [(['i'], 16), (['j'], 17)], effLine := 0,
       symCount := 2 } : AsmState).symbolTable =
      initAsmState.symbolTable ++
        enumFrom 16 (newVars (keys initAsmState.symbolTable)
          [['@', 'i'], ['@', 'j'], ['@', 'i']]) ∧
    ({ symbolTable := init_symbol_table ++ [(['i'], 16), (['j'], 17)], effLine := 0,
       symCount := 2 } : AsmState).symCount =
      (newVars (keys initAsmState.symbolTable)
        [['@', 'i'], ['@', 'j'], ['@', 'i']]).length :=
  c5_variable_allocation initAsmState [['@', 'i'], ['@', 'j'], ['@', 'i']] 1
    [('0' :: natToBin 15 16), ('0' :: natToBin 15 17), ('0' :: natToBin 15 16)]
    { symbolTable := init_symbol_table ++ [(['i'], 16), (['j'], 17)], effLine := 0,
      symCount := 2 }
    rfl rfl

/-- C9: when the whole translation fails with one of the three pass-2 error
kinds (missing operand, address out of range, illegal instruction), the
reported line number k is the original 1-based line number in the raw
source: the k-th raw line normalizes to the very non-empty, non-label
instruction whose processing at reported line k produced the error, for
every source including ones with blank, comment-only and label lines before
the offending line. -/
theorem c9_error_line_number (lines : List (List Char)) (e : AsmErr) (k : Nat)
    (hrun : process_assembly lines = .error e) (hk : pass2ErrLine e = some k) :
    1 ≤ k ∧ k ≤ lines.length ∧
    ∃ raw s, lines.get? (k - 1) = some raw ∧ strip_down raw k = .ok s ∧
      s ≠ [] ∧ shapeFP s = s ∧
      ∃ st0 : AsmState, (process_instruction st0 s k).1 = .error e := by
  simp only [process_assembly] at hrun
  split at hrun
  · rename_i e2 h1
    simp only [Except.error.injEq] at hrun
    subst hrun
    rw [runFirstPass_err _ _ _ _ h1] at hk
    exact Option.noConfusion hk
  · rename_i effs st1 h1
    split at hrun
    · rename_i e2 h2
      simp only [Except.error.injEq] at hrun
      subst hrun
      obtain ⟨i, inst, st0, hgi, hne, hpe⟩ := runSecondPass_err effs st1 1 _ h2
      have hk2 : k = 1 + i := process_instruction_err_line st0 inst (1 + i) _ k hpe hk
      have hlen := runFirstPass_len lines initAsmState 1 effs st1 h1
      obtain ⟨hi, -⟩ := List.get?_eq_some.mp hgi
      have hi2 : i < lines.length := hlen ▸ hi
      obtain ⟨raw, hraw⟩ : ∃ raw, lines.get? i = some raw :=
        ⟨lines.get ⟨i, hi2⟩, List.get?_eq_get hi2⟩
      obtain ⟨s, hstrip, hshape⟩ :=
        runFirstPass_shape lines initAsmState 1 effs st1 h1 i raw hraw
      have hinst : inst = shapeFP s := by
        rw [hgi] at hshape
        injection hshape
      have hsfacts : s ≠ [] ∧ shapeFP s = s := by
        cases s with
        | nil =>
          rw [hinst] at hne
          simp [shapeFP] at hne
        | cons c cs =>
          by_cases hcp : c = '('
          · rw [hinst] at hne
            simp [shapeFP, hcp] at hne
          · exact ⟨by simp, by simp [shapeFP, hcp]⟩
      subst hk2
      refine ⟨by omega, by omega, raw, s, ?_, hstrip, hsfacts.1, hsfacts.2, st0, ?_⟩
      · rw [show 1 + i - 1 = i from by omega]
        exact hraw
      · rw [← hsfacts.2, ← hinst]
        exact hpe
    · exact Except.noConfusion hrun

/-- Witness for C9 on a source with a blank line, a comment line and a label
line before the offending `@` on raw line 4, which is only the first
effective instruction. -/
theorem c9_error_line_number_witness :
    1 ≤ 4 ∧
    4 ≤ ([[], ['/', '/', 'x'], ['(', 'L', ')'], ['@']] : List (List Char)).length ∧
    ∃ raw s,
      ([[], ['/', '/', 'x'], ['(', 'L', ')'], ['@']] : List (List Char)).get? (4 - 1) =
        some raw ∧
      strip_down raw 4 = .ok s ∧ s ≠ [] ∧ shapeFP s = s ∧
      ∃ st0 : AsmState, (process_instruction st0 s 4).1 =
        .error (.missingOperand 4) :=
  c9_error_line_number [[], ['/', '/', 'x'], ['(', 'L', ')'], ['@']]
    (.missingOperand 4) 4 rfl rfl

/-- C4 counterexample: the claim says every A-instruction referencing a
label defined as the k-th effective instruction encodes address k.  For the
source `(5)` then `@5`, the label `5` is defined as the 0th effective
instruction, yet the A-instruction whose operand is that label name encodes
the literal address 5, not 0, because operands that parse as integers never
consult the Symbol Table. -/
theorem c4_numeric_label_cex :
    process_assembly [['(', '5', ')'], ['@', '5']] =
      .ok [['0','0','0','0','0','0','0','0','0','0','0','0','0','1','0','1']] ∧
    (['0','0','0','0','0','0','0','0','0','0','0','0','0','1','0','1'] : List Char) ≠
      '0' :: natToBin 15 0 := ⟨rfl, by decide⟩

/-- C4 (amended): for every source whose translation succeeds, if the i-th
raw line normalizes to the definition of a label L whose non-empty name
does not parse as an integer literal, and the j-th raw line (before or
after the definition) normalizes to `@L`, then the output word at the
position of that reference, namely the number of effective instructions
before raw line j, is `0` followed by the 15-bit binary of k, the number of
effective instructions before raw line i. -/
theorem c4_label_resolution (lines effs outs : List (List Char)) (st1 st2 : AsmState)
    (L : List Char) (i j : Nat)
    (h1 : runFirstPass initAsmState lines 1 = .ok (effs, st1))
    (h2 : runSecondPass st1 effs 1 = .ok (outs, st2))
    (hL1 : L ≠ []) (hL2 : pyParseInt L = none)
    (hdef : ∃ raw, lines.get? i = some raw ∧
      strip_down raw (1 + i) = .ok ('(' :: (L ++ [')'])))
    (href : ∃ raw, lines.get? j = some raw ∧
      strip_down raw (1 + j) = .ok ('@' :: L)) :
    outs.get? (countEff (List.take j effs)) =
      some ('0' :: natToBin 15 (countEff (List.take i effs))) := by
  obtain ⟨rawi, hrawi, hstripi⟩ := hdef
  obtain ⟨rawj, hrawj, hstripj⟩ := href
  have hlab := runFirstPass_label lines initAsmState 1 effs st1 h1 i rawi L hrawi hstripi
  have hlab2 : lookupBy st1.symbolTable L = some (countEff (List.take i effs)) := by
    simpa [initAsmState] using hlab
  obtain ⟨sj, hsj, hgetj⟩ := runFirstPass_shape lines initAsmState 1 effs st1 h1 j rawj hrawj
  have hsj2 : '@' :: L = sj := by
    rw [hstripj] at hsj
    injection hsj
  rw [← hsj2] at hgetj
  have hshape : shapeFP ('@' :: L) = '@' :: L := by simp [shapeFP]
  rw [hshape] at hgetj
  exact runSecondPass_out effs st1 1 outs st2 h2 j L (countEff (List.take i effs))
    hgetj hL1 hL2 hlab2

/-- Witness for C4 on `@LOOP`, `D=A`, `(LOOP)`, `@LOOP`: the label LOOP is
the 2nd effective instruction (0-indexed) and the forward reference on raw
line 1 encodes address 2. -/
theorem c4_label_resolution_witness :
    ([('0' :: natToBin 15 2),
      ['1','1','1','0','1','1','0','0','0','0','0','1','0','0','0','0'],
      ('0' :: natToBin 15 2)] : List (List Char)).get? 0 =
      some ('0' :: natToBin 15 2) :=
  c4_label_resolution
    [['@','L','O','O','P'], ['D','=','A'], ['(','L','O','O','P',')'],
     ['@','L','O','O','P']]
    [['@','L','O','O','P'], ['D','=','A'], [], ['@','L','O','O','P']]
    [('0' :: natToBin 15 2),
     ['1','1','1','0','1','1','0','0','0','0','0','1','0','0','0','0'],
     ('0' :: natToBin 15 2)]
    { symbolTable := init_symbol_table ++ [(['L','O','O','P'], 2)], effLine := 3,
      symCount := 0 }
    { symbolTable := init_symbol_table ++ [(['L','O','O','P'], 2)], effLine := 3,
      symCount := 0 }
    ['L','O','O','P'] 2 0 rfl rfl (by decide) (by decide)
    ⟨['(','L','O','O','P',')'], rfl, rfl⟩ ⟨['@','L','O','O','P'], rfl, rfl⟩

end HackAsm
